import Mathlib

/-!
# Verification of the hash-sig-serde cryptographic core

A shallow embedding of the repository's symmetric primitives (the SHA tweak
model and tweakable hash from `src/symmetric/tweak_hash/sha.rs`, the SHA-256
message hash from `src/symmetric/message_hash/sha.rs`, the field-arithmetic
message-hash helpers from `src/symmetric/message_hash/poseidon.rs`) and of the
spec-described Winternitz one-time-signature composition, together with
theorems settling the frozen claims.

Byte strings are modelled as `List Nat` (each entry a byte value); the
external digest functions (SHA3-256 from `tiny_keccak`, SHA-256 from `sha2`)
are external crates, not code of this repository, and enter as opaque function
parameters constrained only by their output length (32 bytes).  A Rust
operation that can panic (a failing `assert!`, an out-of-range slice) is
embedded as an `Option` result, with `none` standing for the panic.
-/

namespace HashSig

/-- `TWEAK_SEPARATOR_FOR_TREE_HASH` from the crate root: the code comments in
`src/symmetric/tweak_hash/sha.rs` and the spec fix it to the byte `0x00`. -/
def TWEAK_SEPARATOR_FOR_TREE_HASH : Nat := 0x00

/-- `TWEAK_SEPARATOR_FOR_CHAIN_HASH` from the crate root: the code comments in
`src/symmetric/tweak_hash/sha.rs` and the spec fix it to the byte `0x01`. -/
def TWEAK_SEPARATOR_FOR_CHAIN_HASH : Nat := 0x01

/-- Modelled from the spec: `MESSAGE_LENGTH` is the crate-level fixed message
length; the crate root that defines it is not among the sources.  The tests of
`src/symmetric/message_hash/sha.rs` use 32-byte messages. -/
def MESSAGE_LENGTH : Nat := 32

/-- Rust's `to_be_bytes` on a `width`-byte unsigned integer: fixed-width
big-endian byte encoding (most significant byte first). -/
def toBeBytes (width v : Nat) : List Nat :=
  match width with
  | 0 => []
  | k + 1 => v / 2 ^ (8 * k) % 256 :: toBeBytes k v

/-- Rust's `to_le_bytes` on a `width`-byte unsigned integer: fixed-width
little-endian byte encoding (least significant byte first). -/
def toLeBytes (width v : Nat) : List Nat :=
  match width with
  | 0 => []
  | k + 1 => v % 256 :: toLeBytes k (v / 256)

/-- `ShaTweak` from `src/symmetric/tweak_hash/sha.rs`: the tagged tweak type.
Fields are machine integers (`level : u8`, `pos_in_level : u32`,
`epoch : u32`, `chain_index : u16`, `pos_in_chain : u16`), modelled as `Nat`
with explicit range hypotheses where a theorem needs them. -/
inductive ShaTweak where
  | TreeTweak (level : Nat) (pos_in_level : Nat)
  | ChainTweak (epoch : Nat) (chain_index : Nat) (pos_in_chain : Nat)
deriving DecidableEq

/-- `ShaTweak::to_bytes`: the canonical byte encoding.  A tree tweak is the
marker byte `0x00` followed by the big-endian bytes of `level` (1 byte) and
`pos_in_level` (4 bytes); a chain tweak is the marker byte `0x01` followed by
the big-endian bytes of `epoch` (4), `chain_index` (2) and `pos_in_chain` (2). -/
def ShaTweak.to_bytes : ShaTweak → List Nat
  | .TreeTweak level pos_in_level =>
      TWEAK_SEPARATOR_FOR_TREE_HASH :: (toBeBytes 1 level ++ toBeBytes 4 pos_in_level)
  | .ChainTweak epoch chain_index pos_in_chain =>
      TWEAK_SEPARATOR_FOR_CHAIN_HASH ::
        (toBeBytes 4 epoch ++ (toBeBytes 2 chain_index ++ toBeBytes 2 pos_in_chain))

/-- An incremental hasher (as used through `tiny_keccak`'s `Sha3` and `sha2`'s
`Sha256`): `update` calls accumulate input bytes; finalizing applies the digest
function to the accumulated byte stream. -/
structure Hasher where
  buf : List Nat
deriving DecidableEq

/-- `Sha3::v256()` / `Sha256::new()`: a fresh hasher with an empty buffer. -/
def Hasher.new : Hasher := ⟨[]⟩

/-- `hasher.update(data)`: absorb more input bytes. -/
def Hasher.update (h : Hasher) (data : List Nat) : Hasher := ⟨h.buf ++ data⟩

/-- `hasher.finalize(...)`: apply the digest function to everything absorbed. -/
def Hasher.finalize (digest : List Nat → List Nat) (h : Hasher) : List Nat :=
  digest h.buf

namespace ShaTweakHash

/-- `ShaTweakHash::<PARAMETER_LEN, HASH_LEN>::apply` from
`src/symmetric/tweak_hash/sha.rs`: feed the parameter bytes, the tweak's
canonical bytes, and every message element in slice order into an incremental
SHA3-256 hasher, finalize, and take bytes `0..HASH_LEN` of the 32-byte
result.  The digest function of the external `tiny_keccak` crate is the
parameter `sha3`; the slice `result[0..HASH_LEN]` panics when `HASH_LEN`
exceeds the buffer length, which the embedding records by returning `none`. -/
def apply (HASH_LEN : Nat) (sha3 : List Nat → List Nat)
    (parameter : List Nat) (tweak : ShaTweak) (message : List (List Nat)) :
    Option (List Nat) :=
  let hasher := Hasher.new
  let hasher := hasher.update parameter
  let hasher := hasher.update tweak.to_bytes
  let hasher := message.foldl (fun acc m => acc.update m) hasher
  let result := Hasher.finalize sha3 hasher
  if HASH_LEN ≤ result.length then some (result.take HASH_LEN) else none

/-- The reference definition of C4, stated from the spec's words: concatenate
the parameter bytes, the tweak's canonical bytes, and each domain element's
bytes in order, hash the concatenation, and return the first `HASH_LEN`
bytes of the digest. -/
def applySpec (HASH_LEN : Nat) (sha3 : List Nat → List Nat)
    (parameter : List Nat) (tweak : ShaTweak) (message : List (List Nat)) :
    List Nat :=
  (sha3 (parameter ++ tweak.to_bytes ++ message.flatten)).take HASH_LEN

end ShaTweakHash

/-- Modelled from the spec: `bytes_to_chunks` lives in
`src/symmetric/message_hash/mod.rs`, which is not among the sources; the spec
says each byte is unpacked into `8 / CHUNK_SIZE` chunks of `CHUNK_SIZE` bits,
in big-endian bit order within the byte. -/
def bytes_to_chunks (bytes : List Nat) (chunk_size : Nat) : List Nat :=
  (bytes.map (fun b =>
    (List.range (8 / chunk_size)).map
      (fun j => b / 2 ^ (8 - chunk_size * (j + 1)) % 2 ^ chunk_size))).flatten

namespace Sha256MessageHash

/-- `Sha256MessageHash::<PARAMETER_LEN, RAND_LEN, NUM_CHUNKS, CHUNK_SIZE>::apply`
from `src/symmetric/message_hash/sha.rs`: four `assert!` statements check the
configuration constants at the start of every call (a failing assert panics,
recorded as `none`); then the parameter, the byte `0x02`, the little-endian
epoch, the randomness and the message are absorbed into an incremental
SHA-256 hasher, and the first `NUM_CHUNKS * CHUNK_SIZE / 8` digest bytes are
turned into chunks.  The digest function of the external `sha2` crate is the
parameter `sha256`; the slice of the digest panics (`none`) if it is out of
range. -/
def apply (PARAMETER_LEN RAND_LEN NUM_CHUNKS CHUNK_SIZE : Nat)
    (sha256 : List Nat → List Nat) (parameter : List Nat) (epoch : Nat)
    (randomness : List Nat) (message : List Nat) : Option (List Nat) :=
  if PARAMETER_LEN < 256 / 8 ∧ RAND_LEN < 256 / 8 ∧ RAND_LEN > 0 ∧
      NUM_CHUNKS * CHUNK_SIZE < 256 then
    let hasher := Hasher.new
    let hasher := hasher.update parameter
    let hasher := hasher.update [0x02]
    let hasher := hasher.update (toLeBytes 4 epoch)
    let hasher := hasher.update randomness
    let hasher := hasher.update message
    let hash := Hasher.finalize sha256 hasher
    if NUM_CHUNKS * CHUNK_SIZE / 8 ≤ hash.length then
      some (bytes_to_chunks (hash.take (NUM_CHUNKS * CHUNK_SIZE / 8)) CHUNK_SIZE)
    else none
  else none

/-- The reference definition of C5, stated from the spec's words: hash
`parameter ++ 0x02 ++ little-endian(epoch) ++ randomness ++ message`, take the
first `NUM_CHUNKS * CHUNK_SIZE / 8` bytes of the digest, and read chunk `k`
directly out of byte `k / (8 / CHUNK_SIZE)` at bit offset
`CHUNK_SIZE * (k % (8 / CHUNK_SIZE))` from the byte's most significant bit. -/
def applySpec (NUM_CHUNKS CHUNK_SIZE : Nat) (sha256 : List Nat → List Nat)
    (parameter : List Nat) (epoch : Nat) (randomness : List Nat)
    (message : List Nat) : List Nat :=
  let digest := sha256 (parameter ++ [0x02] ++ toLeBytes 4 epoch ++ randomness ++ message)
  let bytes := digest.take (NUM_CHUNKS * CHUNK_SIZE / 8)
  (List.range (bytes.length * (8 / CHUNK_SIZE))).map fun k =>
    bytes.getD (k / (8 / CHUNK_SIZE)) 0
      / 2 ^ (8 - CHUNK_SIZE * (k % (8 / CHUNK_SIZE) + 1)) % 2 ^ CHUNK_SIZE

end Sha256MessageHash

/-- The BabyBear prime `FqConfig::MODULUS` of the external `zkhash` crate used
by the field-arithmetic backend: `p = 2^31 - 2^27 + 1`. -/
def MODULUS : Nat := 2013265921

/-- `BigUint::from_bytes_le`: the little-endian integer value of a byte
string. -/
def fromBytesLE : List Nat → Nat
  | [] => 0
  | b :: bs => b + 256 * fromBytesLE bs

/-- The little-endian base-`p` digit expansion with `n` digits, as computed by
the accumulator folds of `encode_message`, `encode_epoch` and
`decode_to_chunks` in `src/symmetric/message_hash/poseidon.rs`
(`digit = acc % p; acc /= p`, one digit per slot). -/
def baseDigitsLE (p : Nat) : Nat → Nat → List Nat
  | 0, _ => []
  | n + 1, m => m % p :: baseDigitsLE p n (m / p)

/-- `encode_message::<MSG_LEN_FE>` from `src/symmetric/message_hash/poseidon.rs`
(the field-arithmetic backend, kept commented out in the source): interpret
the message as a little-endian integer and decompose it in base `p` into
`MSG_LEN_FE` field elements, least significant digit first
(`std::array::from_fn` fills indices in increasing order while the closure
takes `acc % p` and divides the accumulator by `p`). -/
def encode_message (MSG_LEN_FE : Nat) (message : List Nat) : List Nat :=
  baseDigitsLE MODULUS MSG_LEN_FE (fromBytesLE message)

/-- The fold at the start of `decode_to_chunks`: read the field elements as
big-endian base-`p` digits of one large integer
(`acc = acc * p + element`, left to right). -/
def toBigUintBE (p : Nat) (fes : List Nat) : Nat :=
  fes.foldl (fun acc x => acc * p + x) 0

/-- `decode_to_chunks::<NUM_CHUNKS, CHUNK_SIZE, HASH_LEN_FE>` from
`src/symmetric/message_hash/poseidon.rs`: fold the field elements into one
integer treating them as big-endian base-`p` digits, then split that integer
into `NUM_CHUNKS` base-`2^CHUNK_SIZE` digits, least significant first.  For
`CHUNK_SIZE ≤ 8` (the documented range) the code's
`(acc % max_chunk_len).to_bytes_be()[0]` is the value `acc % 2^CHUNK_SIZE`
itself, which is how the chunk extraction is embedded. -/
def decode_to_chunks (NUM_CHUNKS CHUNK_SIZE : Nat) (fes : List Nat) : List Nat :=
  baseDigitsLE (2 ^ CHUNK_SIZE) NUM_CHUNKS (toBigUintBE MODULUS fes)

/-- The value of a chunk list read in base `W`, least significant chunk first:
`Σ cᵢ · Wⁱ`. -/
def evalBaseLE (W : Nat) : List Nat → Nat
  | [] => 0
  | c :: cs => c + W * evalBaseLE W cs

section Winternitz

variable {α π ρ : Type}

/-- Modelled from the spec: the hash-chain walker of §4.4 and the Winternitz
scheme of §4.5 (`onetimesig/winternitz.rs` is referenced by the benchmarks but
is not among the sources).  `walkSteps th parameter epoch chain_index start
from_pos k` applies the chain-tweaked compression
`th parameter (chain_tweak epoch chain_index position) [current]` for
`position` ranging over `from_pos + 1 .. from_pos + k`, threading each output
into the next step. -/
def walkSteps (th : π → ShaTweak → List α → α) (parameter : π)
    (epoch chain_index : Nat) : α → Nat → Nat → α
  | start, _, 0 => start
  | start, from_pos, k + 1 =>
      walkSteps th parameter epoch chain_index
        (th parameter (ShaTweak.ChainTweak epoch chain_index (from_pos + 1)) [start])
        (from_pos + 1) k

/-- Modelled from the spec (§4.4): `walk(parameter, epoch, chain_index, start,
from_position, to_position)` walks the chain for positions
`from_position + 1 .. to_position`; walking zero steps returns `start`
unchanged. -/
def walk (th : π → ShaTweak → List α → α) (parameter : π)
    (epoch chain_index : Nat) (start : α) (from_pos to_pos : Nat) : α :=
  walkSteps th parameter epoch chain_index start from_pos (to_pos - from_pos)

/-- Modelled from the spec (§4.5 KeyGen): the public chain ends for the secret
starts `sk`, chains indexed from `i`; each secret start is walked from
position 0 to `W - 1`.  The spec does not say which epoch KeyGen's chain
tweaks use; for the round trip to hold at an epoch, KeyGen, Sign and Verify
must walk with the same epoch, so the epoch is passed explicitly. -/
def publicChainEnds (th : π → ShaTweak → List α → α) (parameter : π)
    (epoch W : Nat) : Nat → List α → List α
  | _, [] => []
  | i, s :: sk =>
      walk th parameter epoch i s 0 (W - 1) ::
        publicChainEnds th parameter epoch W (i + 1) sk

/-- Modelled from the spec (§4.5 Sign): chain `i`'s signature value is the
secret start walked from position 0 to that chain's chunk value. -/
def signatureValues (th : π → ShaTweak → List α → α) (parameter : π)
    (epoch W : Nat) : Nat → List α → List Nat → List α
  | _, [], _ => []
  | _, _ :: _, [] => []
  | i, s :: sk, c :: cs =>
      walk th parameter epoch i s 0 c ::
        signatureValues th parameter epoch W (i + 1) sk cs

/-- Modelled from the spec (§4.5 Verify): each signature value is walked from
its chunk position up to `W - 1`, giving the recomputed chain ends. -/
def verifyChainEnds (th : π → ShaTweak → List α → α) (parameter : π)
    (epoch W : Nat) : Nat → List α → List Nat → List α
  | _, [], _ => []
  | _, _ :: _, [] => []
  | i, s :: sk, c :: cs =>
      walk th parameter epoch i s c (W - 1) ::
        verifyChainEnds th parameter epoch W (i + 1) sk cs

/-- Modelled from the spec (§4.5): the Winternitz checksum
`C = Σ (2^CHUNK_SIZE - 1 - chunkᵢ)` over the data chunks. -/
def checksum (W : Nat) (chunks : List Nat) : Nat :=
  (chunks.map (fun c => W - 1 - c)).sum

/-- Modelled from the spec (§4.5): split the checksum into
`NUM_CHECKSUM_CHAINS` chunks of `CHUNK_SIZE` bits each, most significant
chunk first. -/
def checksumChunks (W v C : Nat) : List Nat :=
  (baseDigitsLE W v C).reverse

/-- Modelled from the spec (§4.5 KeyGen): the public key is the ordered list
of chain ends, one per chain (data chains first, then checksum chains), each
obtained by walking the secret start from position 0 to `2^CHUNK_SIZE - 1`. -/
def keygen (th : π → ShaTweak → List α → α) (parameter : π) (epoch : Nat)
    (CHUNK_SIZE : Nat) (sk : List α) : List α :=
  publicChainEnds th parameter epoch (2 ^ CHUNK_SIZE) 0 sk

/-- Modelled from the spec (§4.5 Sign): compute the data chunks with the
message hash `mh`, append the checksum chunks, and walk every chain from
position 0 to its chunk value; the signature is the sampled randomness
together with the ordered chain values. -/
def sign (th : π → ShaTweak → List α → α)
    (mh : π → Nat → ρ → List Nat → List Nat) (CHUNK_SIZE v : Nat)
    (parameter : π) (epoch : Nat) (randomness : ρ) (message : List Nat)
    (sk : List α) : ρ × List α :=
  let W := 2 ^ CHUNK_SIZE
  let chunks := mh parameter epoch randomness message
  let allChunks := chunks ++ checksumChunks W v (checksum W chunks)
  (randomness, signatureValues th parameter epoch W 0 sk allChunks)

/-- Modelled from the spec (§4.5 Verify): recompute the data and checksum
chunks from the signature's randomness, walk each signature value from its
chunk position up to `2^CHUNK_SIZE - 1`, and accept iff every recomputed
chain end equals the corresponding public-key chain end. -/
def verify [DecidableEq α] (th : π → ShaTweak → List α → α)
    (mh : π → Nat → ρ → List Nat → List Nat) (CHUNK_SIZE v : Nat)
    (pk : List α) (parameter : π) (epoch : Nat) (message : List Nat)
    (signature : ρ × List α) : Bool :=
  let W := 2 ^ CHUNK_SIZE
  let chunks := mh parameter epoch signature.1 message
  let allChunks := chunks ++ checksumChunks W v (checksum W chunks)
  decide (verifyChainEnds th parameter epoch W 0 signature.2 allChunks = pk)

end Winternitz

/-! ## Helper lemmas -/

lemma toBeBytes_length (w v : Nat) : (toBeBytes w v).length = w := by
  induction w with
  | zero => simp [toBeBytes]
  | succ k ih => simp [toBeBytes, ih]

lemma toBeBytes_mod_eq {w v₁ v₂ : Nat} (h : toBeBytes w v₁ = toBeBytes w v₂) :
    v₁ % 2 ^ (8 * w) = v₂ % 2 ^ (8 * w) := by
  induction w with
  | zero => simp [Nat.mod_one]
  | succ k ih =>
    simp only [toBeBytes, List.cons.injEq] at h
    obtain ⟨h₁, h₂⟩ := h
    have h₃ := ih h₂
    have e : (2 : Nat) ^ (8 * (k + 1)) = 2 ^ (8 * k) * 2 ^ 8 := by ring
    rw [e, Nat.mod_mul, Nat.mod_mul, h₃]
    norm_num at h₁ ⊢
    rw [h₁]

lemma toBeBytes_inj {w v₁ v₂ : Nat} (hb₁ : v₁ < 2 ^ (8 * w)) (hb₂ : v₂ < 2 ^ (8 * w))
    (h : toBeBytes w v₁ = toBeBytes w v₂) : v₁ = v₂ := by
  have := toBeBytes_mod_eq h
  rwa [Nat.mod_eq_of_lt hb₁, Nat.mod_eq_of_lt hb₂] at this

lemma Hasher.foldl_update_buf (ms : List (List Nat)) (h : Hasher) :
    (ms.foldl (fun acc m => acc.update m) h).buf = h.buf ++ ms.flatten := by
  induction ms generalizing h with
  | nil => simp
  | cons m ms ih =>
    rw [List.foldl_cons, ih]
    simp [Hasher.update, List.append_assoc]

end HashSig

namespace HashSig

/-- C1: the canonical byte encoding of tweaks is injective across the union of
both variants: a tree encoding always begins with marker byte 0x00 and a chain
encoding with 0x01, the two variants never encode to equal byte sequences, and
within each variant two tweaks whose fields lie in their machine-integer
ranges encode equally only when all fields agree. -/
theorem C1_shaTweak_to_bytes_injective :
    (∀ level pos_in_level epoch chain_index pos_in_chain : Nat,
      (ShaTweak.TreeTweak level pos_in_level).to_bytes ≠
        (ShaTweak.ChainTweak epoch chain_index pos_in_chain).to_bytes) ∧
    (∀ level pos_in_level : Nat,
      ((ShaTweak.TreeTweak level pos_in_level).to_bytes).head? = some 0x00) ∧
    (∀ epoch chain_index pos_in_chain : Nat,
      ((ShaTweak.ChainTweak epoch chain_index pos_in_chain).to_bytes).head? = some 0x01) ∧
    (∀ l₁ p₁ l₂ p₂ : Nat, l₁ < 2 ^ 8 → p₁ < 2 ^ 32 → l₂ < 2 ^ 8 → p₂ < 2 ^ 32 →
      (ShaTweak.TreeTweak l₁ p₁).to_bytes = (ShaTweak.TreeTweak l₂ p₂).to_bytes →
      l₁ = l₂ ∧ p₁ = p₂) ∧
    (∀ e₁ c₁ q₁ e₂ c₂ q₂ : Nat, e₁ < 2 ^ 32 → c₁ < 2 ^ 16 → q₁ < 2 ^ 16 →
      e₂ < 2 ^ 32 → c₂ < 2 ^ 16 → q₂ < 2 ^ 16 →
      (ShaTweak.ChainTweak e₁ c₁ q₁).to_bytes = (ShaTweak.ChainTweak e₂ c₂ q₂).to_bytes →
      e₁ = e₂ ∧ c₁ = c₂ ∧ q₁ = q₂) := by
  refine ⟨?_, ?_, ?_, ?_, ?_⟩
  · intro level pos_in_level epoch chain_index pos_in_chain h
    simp [ShaTweak.to_bytes, TWEAK_SEPARATOR_FOR_TREE_HASH,
      TWEAK_SEPARATOR_FOR_CHAIN_HASH] at h
  · intro level pos_in_level
    simp [ShaTweak.to_bytes, TWEAK_SEPARATOR_FOR_TREE_HASH]
  · intro epoch chain_index pos_in_chain
    simp [ShaTweak.to_bytes, TWEAK_SEPARATOR_FOR_CHAIN_HASH]
  · intro l₁ p₁ l₂ p₂ hl₁ hp₁ hl₂ hp₂ h
    simp only [ShaTweak.to_bytes, List.cons.injEq, true_and] at h
    obtain ⟨h₁, h₂⟩ := List.append_inj h (by simp [toBeBytes_length])
    constructor
    · exact toBeBytes_inj (by simpa using hl₁) (by simpa using hl₂) h₁
    · exact toBeBytes_inj (by norm_num at hp₁ ⊢; exact hp₁)
        (by norm_num at hp₂ ⊢; exact hp₂) h₂
  · intro e₁ c₁ q₁ e₂ c₂ q₂ he₁ hc₁ hq₁ he₂ hc₂ hq₂ h
    simp only [ShaTweak.to_bytes, List.cons.injEq, true_and] at h
    obtain ⟨h₁, h₂⟩ := List.append_inj h (by simp [toBeBytes_length])
    obtain ⟨h₃, h₄⟩ := List.append_inj h₂ (by simp [toBeBytes_length])
    refine ⟨?_, ?_, ?_⟩
    · exact toBeBytes_inj (by norm_num at he₁ ⊢; exact he₁)
        (by norm_num at he₂ ⊢; exact he₂) h₁
    · exact toBeBytes_inj (by norm_num at hc₁ ⊢; exact hc₁)
        (by norm_num at hc₂ ⊢; exact hc₂) h₃
    · exact toBeBytes_inj (by norm_num at hq₁ ⊢; exact hq₁)
        (by norm_num at hq₂ ⊢; exact hq₂) h₄

/-- Witness for C1 at concrete tweak values. -/
theorem C1_shaTweak_to_bytes_injective_witness :
    (ShaTweak.TreeTweak 3 5).to_bytes ≠ (ShaTweak.ChainTweak 3 5 7).to_bytes ∧
    (ShaTweak.TreeTweak 1 2).to_bytes ≠ (ShaTweak.TreeTweak 1 3).to_bytes := by
  constructor
  · exact C1_shaTweak_to_bytes_injective.1 3 5 3 5 7
  · intro h
    have h₀ := C1_shaTweak_to_bytes_injective.2.2.2.1 1 2 1 3
      (by norm_num) (by norm_num) (by norm_num) (by norm_num) h
    exact absurd h₀.2 (by norm_num)

lemma shaTweakHash_buf (parameter : List Nat) (tweak : ShaTweak)
    (message : List (List Nat)) :
    (message.foldl (fun acc m => acc.update m)
        ((Hasher.new.update parameter).update tweak.to_bytes)).buf =
      parameter ++ tweak.to_bytes ++ message.flatten := by
  rw [Hasher.foldl_update_buf]
  simp [Hasher.new, Hasher.update]

/-- C4: `ShaTweakHash::apply` equals the reference definition: concatenate the
parameter bytes, the canonical tweak bytes and each domain element's bytes in
order, hash the concatenation with SHA3-256, and return the first `HASH_LEN`
bytes of the digest. -/
theorem C4_shaTweakHash_apply_eq_spec (HASH_LEN : Nat)
    (sha3 : List Nat → List Nat) (hsha : ∀ l, (sha3 l).length = 32)
    (hlen : HASH_LEN ≤ 32) (parameter : List Nat) (tweak : ShaTweak)
    (message : List (List Nat)) :
    ShaTweakHash.apply HASH_LEN sha3 parameter tweak message =
      some (ShaTweakHash.applySpec HASH_LEN sha3 parameter tweak message) := by
  simp only [ShaTweakHash.apply, ShaTweakHash.applySpec, Hasher.finalize,
    shaTweakHash_buf, hsha]
  rw [if_pos hlen]

/-- Witness for C4 at a concrete digest function and concrete inputs. -/
theorem C4_shaTweakHash_apply_eq_spec_witness :
    ShaTweakHash.apply 16 (fun _ => List.replicate 32 0)
      (List.replicate 16 1) (ShaTweak.TreeTweak 0 3)
      [List.replicate 16 2, List.replicate 16 3] =
      some (ShaTweakHash.applySpec 16 (fun _ => List.replicate 32 0)
        (List.replicate 16 1) (ShaTweak.TreeTweak 0 3)
        [List.replicate 16 2, List.replicate 16 3]) :=
  C4_shaTweakHash_apply_eq_spec 16 _ (fun _ => by simp) (by norm_num) _ _ _

/-- C10: `ShaTweakHash::apply` is defined for a message slice of any number of
domain elements (zero, one, two, or more): with `PARAMETER_LEN < 32` and
`HASH_LEN < 32` it returns a domain element without failing, hashing all
elements in slice order. -/
theorem C10_shaTweakHash_apply_total (PARAMETER_LEN HASH_LEN : Nat)
    (sha3 : List Nat → List Nat) (hsha : ∀ l, (sha3 l).length = 32)
    (hplen : PARAMETER_LEN < 32) (hhlen : HASH_LEN < 32)
    (parameter : List Nat) (hpar : parameter.length = PARAMETER_LEN)
    (tweak : ShaTweak) (message : List (List Nat)) :
    ShaTweakHash.apply HASH_LEN sha3 parameter tweak message =
      some ((sha3 (parameter ++ tweak.to_bytes ++ message.flatten)).take HASH_LEN) := by
  simp only [ShaTweakHash.apply, Hasher.finalize, shaTweakHash_buf, hsha]
  rw [if_pos (Nat.le_of_lt hhlen)]

/-- Witness for C10 at concrete inputs with an empty message slice. -/
theorem C10_shaTweakHash_apply_total_witness :
    ShaTweakHash.apply 24 (fun _ => List.replicate 32 7)
      (List.replicate 16 1) (ShaTweak.ChainTweak 2 3 4) [] =
      some ((List.replicate 32 7).take 24) := by
  have h := C10_shaTweakHash_apply_total 16 24 (fun _ => List.replicate 32 7)
    (fun _ => by simp) (by norm_num) (by norm_num)
    (List.replicate 16 1) (by simp) (ShaTweak.ChainTweak 2 3 4) []
  exact h

lemma bytes_to_chunks_cons (b : Nat) (bs : List Nat) (c : Nat) :
    bytes_to_chunks (b :: bs) c =
      ((List.range (8 / c)).map fun j => b / 2 ^ (8 - c * (j + 1)) % 2 ^ c) ++
        bytes_to_chunks bs c := by
  simp [bytes_to_chunks]

lemma bytes_to_chunks_length (bytes : List Nat) (c : Nat) :
    (bytes_to_chunks bytes c).length = bytes.length * (8 / c) := by
  induction bytes with
  | nil => simp [bytes_to_chunks]
  | cons b bs ih =>
    rw [bytes_to_chunks_cons]
    simp only [List.length_append, List.length_map, List.length_range, ih,
      List.length_cons]
    ring

lemma bytes_to_chunks_lt (bytes : List Nat) (c : Nat) :
    ∀ x ∈ bytes_to_chunks bytes c, x < 2 ^ c := by
  intro x hx
  simp only [bytes_to_chunks, List.mem_flatten, List.mem_map] at hx
  obtain ⟨l, ⟨b, hb, rfl⟩, hxl⟩ := hx
  obtain ⟨j, hj, rfl⟩ := List.mem_map.mp hxl
  exact Nat.mod_lt _ (Nat.two_pow_pos c)

lemma bytes_to_chunks_eq_indexed (bytes : List Nat) (c : Nat) (hc : 0 < 8 / c) :
    bytes_to_chunks bytes c =
      (List.range (bytes.length * (8 / c))).map (fun k =>
        bytes.getD (k / (8 / c)) 0 / 2 ^ (8 - c * (k % (8 / c) + 1)) % 2 ^ c) := by
  induction bytes with
  | nil => simp [bytes_to_chunks]
  | cons b bs ih =>
    rw [bytes_to_chunks_cons, ih]
    have hsplit : (b :: bs).length * (8 / c) = 8 / c + bs.length * (8 / c) := by
      simp only [List.length_cons]; ring
    rw [hsplit, List.range_add, List.map_append, List.map_map]
    congr 1
    · apply List.map_congr_left
      intro j hj
      have hjlt : j < 8 / c := List.mem_range.mp hj
      rw [Nat.div_eq_of_lt hjlt, Nat.mod_eq_of_lt hjlt]
      simp
    · apply List.map_congr_left
      intro k hk
      simp only [Function.comp_apply]
      have h₁ : (8 / c + k) / (8 / c) = k / (8 / c) + 1 := by
        rw [Nat.add_comm, Nat.add_div_right _ hc]
      have h₂ : (8 / c + k) % (8 / c) = k % (8 / c) := Nat.add_mod_left _ _
      rw [h₁, h₂, List.getD_cons_succ]

lemma sha256MessageHash_buf (parameter : List Nat) (epoch : Nat)
    (randomness message : List Nat) :
    ((((((Hasher.new.update parameter).update [0x02]).update
        (toLeBytes 4 epoch)).update randomness).update message)).buf =
      parameter ++ [0x02] ++ toLeBytes 4 epoch ++ randomness ++ message := by
  simp [Hasher.new, Hasher.update, List.append_assoc]

/-- Under a configuration accepted by the call-time assertions, and for a
digest function with 32-byte output, `Sha256MessageHash::apply` returns the
chunks of the first `NUM_CHUNKS * CHUNK_SIZE / 8` digest bytes of the
absorbed stream. -/
lemma sha256MessageHash_apply_some
    (PARAMETER_LEN RAND_LEN NUM_CHUNKS CHUNK_SIZE : Nat)
    (sha256 : List Nat → List Nat) (hsha : ∀ l, (sha256 l).length = 32)
    (hP : PARAMETER_LEN < 32) (hR : RAND_LEN < 32) (hR0 : 0 < RAND_LEN)
    (hNC : NUM_CHUNKS * CHUNK_SIZE < 256)
    (parameter : List Nat) (epoch : Nat) (randomness message : List Nat) :
    Sha256MessageHash.apply PARAMETER_LEN RAND_LEN NUM_CHUNKS CHUNK_SIZE sha256
        parameter epoch randomness message =
      some (bytes_to_chunks
        ((sha256 (parameter ++ [0x02] ++ toLeBytes 4 epoch ++ randomness ++
            message)).take (NUM_CHUNKS * CHUNK_SIZE / 8)) CHUNK_SIZE) := by
  unfold Sha256MessageHash.apply
  rw [if_pos ⟨by omega, by omega, hR0, hNC⟩]
  simp only [Hasher.finalize, sha256MessageHash_buf, hsha]
  rw [if_pos (by omega : NUM_CHUNKS * CHUNK_SIZE / 8 ≤ 32)]

/-- C5: `Sha256MessageHash::apply` equals the reference definition: hash
`parameter ++ 0x02 ++ little-endian(epoch) ++ randomness ++ message` with
SHA-256, take the first `NUM_CHUNKS * CHUNK_SIZE / 8` digest bytes, and unpack
each byte into `8 / CHUNK_SIZE` chunks of `CHUNK_SIZE` bits in big-endian bit
order within the byte. -/
theorem C5_sha256MessageHash_apply_eq_spec
    (PARAMETER_LEN RAND_LEN NUM_CHUNKS CHUNK_SIZE : Nat)
    (sha256 : List Nat → List Nat) (hsha : ∀ l, (sha256 l).length = 32)
    (hP : PARAMETER_LEN < 32) (hR : RAND_LEN < 32) (hR0 : 0 < RAND_LEN)
    (hNC : NUM_CHUNKS * CHUNK_SIZE < 256)
    (hC : CHUNK_SIZE = 1 ∨ CHUNK_SIZE = 2 ∨ CHUNK_SIZE = 4 ∨ CHUNK_SIZE = 8)
    (parameter : List Nat) (epoch : Nat) (randomness message : List Nat) :
    Sha256MessageHash.apply PARAMETER_LEN RAND_LEN NUM_CHUNKS CHUNK_SIZE sha256
        parameter epoch randomness message =
      some (Sha256MessageHash.applySpec NUM_CHUNKS CHUNK_SIZE sha256 parameter
        epoch randomness message) := by
  rw [sha256MessageHash_apply_some PARAMETER_LEN RAND_LEN NUM_CHUNKS CHUNK_SIZE
    sha256 hsha hP hR hR0 hNC parameter epoch randomness message]
  have hcpb : 0 < 8 / CHUNK_SIZE := by rcases hC with rfl | rfl | rfl | rfl <;> norm_num
  unfold Sha256MessageHash.applySpec
  rw [bytes_to_chunks_eq_indexed _ _ hcpb]

/-- Witness for C5 at a concrete digest function, configuration and inputs. -/
theorem C5_sha256MessageHash_apply_eq_spec_witness :
    Sha256MessageHash.apply 16 16 16 8 (fun _ => List.replicate 32 0)
      (List.replicate 16 0) 13 (List.replicate 16 1) (List.replicate 32 2) =
      some (Sha256MessageHash.applySpec 16 8 (fun _ => List.replicate 32 0)
        (List.replicate 16 0) 13 (List.replicate 16 1) (List.replicate 32 2)) :=
  C5_sha256MessageHash_apply_eq_spec 16 16 16 8 _ (fun _ => by simp)
    (by norm_num) (by norm_num) (by norm_num) (by norm_num) (by norm_num) _ _ _ _

/-- C7: under the configuration preconditions `PARAMETER_LEN < 32`,
`0 < RAND_LEN < 32` and `NUM_CHUNKS * CHUNK_SIZE < 256`,
`Sha256MessageHash::apply` is total: no assertion fails and the digest slice
is in range, so the call returns a value. -/
theorem C7_sha256MessageHash_apply_total
    (PARAMETER_LEN RAND_LEN NUM_CHUNKS CHUNK_SIZE : Nat)
    (sha256 : List Nat → List Nat) (hsha : ∀ l, (sha256 l).length = 32)
    (hP : PARAMETER_LEN < 32) (hR : RAND_LEN < 32) (hR0 : 0 < RAND_LEN)
    (hNC : NUM_CHUNKS * CHUNK_SIZE < 256)
    (parameter : List Nat) (epoch : Nat) (randomness message : List Nat) :
    (Sha256MessageHash.apply PARAMETER_LEN RAND_LEN NUM_CHUNKS CHUNK_SIZE sha256
        parameter epoch randomness message).isSome = true := by
  rw [sha256MessageHash_apply_some PARAMETER_LEN RAND_LEN NUM_CHUNKS CHUNK_SIZE
    sha256 hsha hP hR hR0 hNC parameter epoch randomness message]
  rfl

/-- Witness for C7 at a concrete digest function, configuration and inputs. -/
theorem C7_sha256MessageHash_apply_total_witness :
    (Sha256MessageHash.apply 24 24 48 4 (fun _ => List.replicate 32 9)
      (List.replicate 24 0) 13 (List.replicate 24 1)
      (List.replicate 32 2)).isSome = true :=
  C7_sha256MessageHash_apply_total 24 24 48 4 _ (fun _ => by simp)
    (by norm_num) (by norm_num) (by norm_num) (by norm_num) _ _ _ _

/-- C6 counterexample: with `RAND_LEN = 0` (a configuration error) a call to
`Sha256MessageHash::apply` fails at call time — the `assert!` statements at
the start of `apply` check the configuration constants on every call, so a
call can fail on account of the configuration, contrary to the claim. -/
theorem C6_counterexample :
    Sha256MessageHash.apply 16 0 16 8 (fun _ => List.replicate 32 0)
      (List.replicate 16 0) 0 [] (List.replicate 32 0) = none := by
  decide

/-- C6 amended: for `Sha256MessageHash` the configuration constraints are
enforced by assertions at the start of every `apply` call, panicking exactly
when the configuration is invalid (there is no instantiation-time check for
this backend; `ShaTweakHash::internal_consistency_check` is compiled only
under `#[cfg(test)]`). -/
theorem C6_amended_config_checked_per_call
    (PARAMETER_LEN RAND_LEN NUM_CHUNKS CHUNK_SIZE : Nat)
    (sha256 : List Nat → List Nat) (hsha : ∀ l, (sha256 l).length = 32)
    (parameter : List Nat) (epoch : Nat) (randomness message : List Nat) :
    Sha256MessageHash.apply PARAMETER_LEN RAND_LEN NUM_CHUNKS CHUNK_SIZE sha256
        parameter epoch randomness message = none ↔
      ¬ (PARAMETER_LEN < 32 ∧ RAND_LEN < 32 ∧ 0 < RAND_LEN ∧
          NUM_CHUNKS * CHUNK_SIZE < 256) := by
  by_cases hcfg : PARAMETER_LEN < 256 / 8 ∧ RAND_LEN < 256 / 8 ∧ RAND_LEN > 0 ∧
      NUM_CHUNKS * CHUNK_SIZE < 256
  · rw [sha256MessageHash_apply_some PARAMETER_LEN RAND_LEN NUM_CHUNKS CHUNK_SIZE
      sha256 hsha (by omega) (by omega) (by omega) (by omega)
      parameter epoch randomness message]
    constructor
    · intro h
      exact absurd h (by simp)
    · intro h
      exact absurd (by omega : PARAMETER_LEN < 32 ∧ RAND_LEN < 32 ∧ 0 < RAND_LEN ∧
        NUM_CHUNKS * CHUNK_SIZE < 256) h
  · unfold Sha256MessageHash.apply
    rw [if_neg hcfg]
    constructor
    · intro _ hy
      exact hcfg (by omega)
    · intro _
      rfl

/-- Witness for C6 (amended) at a concrete valid configuration, where the
call does not fail. -/
theorem C6_amended_config_checked_per_call_witness :
    ¬ (Sha256MessageHash.apply 16 16 16 8 (fun _ => List.replicate 32 0)
        (List.replicate 16 0) 0 (List.replicate 16 0)
        (List.replicate 32 0) = none) := by
  intro h
  have h₀ := (C6_amended_config_checked_per_call 16 16 16 8
    (fun _ => List.replicate 32 0) (fun _ => by simp)
    (List.replicate 16 0) 0 (List.replicate 16 0) (List.replicate 32 0)).mp h
  exact h₀ (by norm_num)

/-- C3 counterexample: the configuration `NUM_CHUNKS = 1`, `CHUNK_SIZE = 1`
satisfies the claim's validity conditions (`CHUNK_SIZE ∈ {1,2,4,8}` and
`NUM_CHUNKS * CHUNK_SIZE < 256`, with in-range parameter and randomness
lengths), yet `apply` returns 0 chunks, not `NUM_CHUNKS = 1`: the code takes
`NUM_CHUNKS * CHUNK_SIZE / 8 = 0` digest bytes. -/
theorem C3_counterexample :
    (Sha256MessageHash.apply 16 16 1 1 (fun _ => List.replicate 32 0)
        (List.replicate 16 0) 0 (List.replicate 16 0)
        (List.replicate 32 0)).map List.length = some 0 ∧ (0 : Nat) ≠ 1 := by
  exact ⟨by decide, by norm_num⟩

/-- C3 amended: when additionally `8` divides `NUM_CHUNKS * CHUNK_SIZE` (as in
every instantiation shipped with the code), `apply` returns exactly
`NUM_CHUNKS` chunks, each in `[0, 2^CHUNK_SIZE)`. -/
theorem C3_amended_chunk_count
    (PARAMETER_LEN RAND_LEN NUM_CHUNKS CHUNK_SIZE : Nat)
    (sha256 : List Nat → List Nat) (hsha : ∀ l, (sha256 l).length = 32)
    (hP : PARAMETER_LEN < 32) (hR : RAND_LEN < 32) (hR0 : 0 < RAND_LEN)
    (hNC : NUM_CHUNKS * CHUNK_SIZE < 256)
    (hC : CHUNK_SIZE = 1 ∨ CHUNK_SIZE = 2 ∨ CHUNK_SIZE = 4 ∨ CHUNK_SIZE = 8)
    (hdvd : NUM_CHUNKS * CHUNK_SIZE % 8 = 0)
    (parameter : List Nat) (epoch : Nat) (randomness message : List Nat) :
    ∃ chunks, Sha256MessageHash.apply PARAMETER_LEN RAND_LEN NUM_CHUNKS
        CHUNK_SIZE sha256 parameter epoch randomness message = some chunks ∧
      chunks.length = NUM_CHUNKS ∧ ∀ x ∈ chunks, x < 2 ^ CHUNK_SIZE := by
  rw [sha256MessageHash_apply_some PARAMETER_LEN RAND_LEN NUM_CHUNKS CHUNK_SIZE
    sha256 hsha hP hR hR0 hNC parameter epoch randomness message]
  refine ⟨_, rfl, ?_, bytes_to_chunks_lt _ _⟩
  rw [bytes_to_chunks_length, List.length_take, hsha]
  rcases hC with rfl | rfl | rfl | rfl <;> omega

/-- Witness for C3 (amended) at a concrete digest function and configuration. -/
theorem C3_amended_chunk_count_witness :
    ∃ chunks, Sha256MessageHash.apply 24 24 48 4 (fun _ => List.replicate 32 3)
        (List.replicate 24 0) 13 (List.replicate 24 1)
        (List.replicate 32 2) = some chunks ∧
      chunks.length = 48 ∧ ∀ x ∈ chunks, x < 2 ^ 4 :=
  C3_amended_chunk_count 24 24 48 4 _ (fun _ => by simp) (by norm_num)
    (by norm_num) (by norm_num) (by norm_num) (by norm_num) (by norm_num) _ _ _ _

lemma baseDigitsLE_length (p n m : Nat) : (baseDigitsLE p n m).length = n := by
  induction n generalizing m with
  | zero => simp [baseDigitsLE]
  | succ k ih => simp [baseDigitsLE, ih]

lemma baseDigitsLE_lt (p n m : Nat) (hp : 0 < p) :
    ∀ d ∈ baseDigitsLE p n m, d < p := by
  induction n generalizing m with
  | zero => simp [baseDigitsLE]
  | succ k ih =>
    intro d hd
    rcases List.mem_cons.mp hd with rfl | hd
    · exact Nat.mod_lt _ hp
    · exact ih (m / p) d hd

lemma baseDigitsLE_getD (p : Nat) {n i : Nat} (m : Nat) (hi : i < n) :
    (baseDigitsLE p n m).getD i 0 = m / p ^ i % p := by
  induction n generalizing m i with
  | zero => omega
  | succ k ih =>
    cases i with
    | zero => simp [baseDigitsLE]
    | succ j =>
      rw [baseDigitsLE, List.getD_cons_succ, ih (m / p) (by omega),
        Nat.div_div_eq_div_mul]
      rw [pow_succ, Nat.mul_comm (p ^ j) p, Nat.mul_comm p (p ^ j)]

lemma evalBaseLE_baseDigitsLE (p n m : Nat) :
    evalBaseLE p (baseDigitsLE p n m) = m % p ^ n := by
  induction n generalizing m with
  | zero => simp [baseDigitsLE, evalBaseLE, Nat.mod_one]
  | succ k ih =>
    rw [baseDigitsLE, evalBaseLE, ih (m / p)]
    rw [pow_succ, Nat.mul_comm (p ^ k) p, Nat.mod_mul]

lemma baseDigitsLE_inj (p n : Nat) {m₁ m₂ : Nat} (h₁ : m₁ < p ^ n)
    (h₂ : m₂ < p ^ n) (h : baseDigitsLE p n m₁ = baseDigitsLE p n m₂) :
    m₁ = m₂ := by
  have he := congrArg (evalBaseLE p) h
  rw [evalBaseLE_baseDigitsLE, evalBaseLE_baseDigitsLE,
    Nat.mod_eq_of_lt h₁, Nat.mod_eq_of_lt h₂] at he
  exact he

lemma fromBytesLE_lt (bs : List Nat) (hb : ∀ b ∈ bs, b < 256) :
    fromBytesLE bs < 256 ^ bs.length := by
  induction bs with
  | nil => simp [fromBytesLE]
  | cons b t ih =>
    have hbt : b < 256 := hb b (by simp)
    have ht : fromBytesLE t < 256 ^ t.length := ih (fun x hx => hb x (by simp [hx]))
    rw [fromBytesLE, List.length_cons, pow_succ, Nat.mul_comm (256 ^ t.length) 256]
    omega

lemma fromBytesLE_inj {bs₁ bs₂ : List Nat} (hlen : bs₁.length = bs₂.length)
    (hb₁ : ∀ b ∈ bs₁, b < 256) (hb₂ : ∀ b ∈ bs₂, b < 256)
    (h : fromBytesLE bs₁ = fromBytesLE bs₂) : bs₁ = bs₂ := by
  induction bs₁ generalizing bs₂ with
  | nil =>
    cases bs₂ with
    | nil => rfl
    | cons b t => simp at hlen
  | cons b t ih =>
    cases bs₂ with
    | nil => simp at hlen
    | cons b₂ t₂ =>
      simp only [fromBytesLE] at h
      have hbb : b < 256 := hb₁ b (by simp)
      have hbb₂ : b₂ < 256 := hb₂ b₂ (by simp)
      have hb_eq : b = b₂ ∧ fromBytesLE t = fromBytesLE t₂ := by
        constructor <;> omega
      rw [hb_eq.1, ih (by simpa using hlen) (fun x hx => hb₁ x (by simp [hx]))
        (fun x hx => hb₂ x (by simp [hx])) hb_eq.2]

/-- C8: `encode_message` computes the little-endian base-`p` decomposition of
the message: output element `i` is `(m / pⁱ) % p` where `m` is the message's
little-endian integer value; and when `p ^ MSG_LEN_FE` covers
`2 ^ (8 * MESSAGE_LENGTH)`, the encoding is injective on
`MESSAGE_LENGTH`-byte messages. -/
theorem C8_encode_message_base_p (MSG_LEN_FE : Nat) :
    (∀ (message : List Nat) (i : Nat), i < MSG_LEN_FE →
      (encode_message MSG_LEN_FE message).getD i 0 =
        fromBytesLE message / MODULUS ^ i % MODULUS) ∧
    (∀ message₁ message₂ : List Nat,
      message₁.length = MESSAGE_LENGTH → message₂.length = MESSAGE_LENGTH →
      (∀ b ∈ message₁, b < 256) → (∀ b ∈ message₂, b < 256) →
      2 ^ (8 * MESSAGE_LENGTH) ≤ MODULUS ^ MSG_LEN_FE →
      encode_message MSG_LEN_FE message₁ = encode_message MSG_LEN_FE message₂ →
      message₁ = message₂) := by
  constructor
  · intro message i hi
    exact baseDigitsLE_getD MODULUS (fromBytesLE message) hi
  · intro message₁ message₂ hl₁ hl₂ hb₁ hb₂ hcov h
    have key : ∀ ms : List Nat, ms.length = MESSAGE_LENGTH →
        (∀ b ∈ ms, b < 256) → fromBytesLE ms < MODULUS ^ MSG_LEN_FE := by
      intro ms hl hb
      have h₁ : fromBytesLE ms < 256 ^ ms.length := fromBytesLE_lt ms hb
      have h₂ : (256 : Nat) ^ ms.length = 2 ^ (8 * MESSAGE_LENGTH) := by
        rw [hl, show (256 : Nat) = 2 ^ 8 by norm_num, ← pow_mul]
      omega
    have hm := baseDigitsLE_inj MODULUS MSG_LEN_FE
      (key message₁ hl₁ hb₁) (key message₂ hl₂ hb₂) h
    exact fromBytesLE_inj (by rw [hl₁, hl₂]) hb₁ hb₂ hm

/-- Witness for C8 at a concrete message and index. -/
theorem C8_encode_message_base_p_witness :
    (encode_message 9 (List.replicate 32 7)).getD 1 0 =
      fromBytesLE (List.replicate 32 7) / MODULUS ^ 1 % MODULUS :=
  (C8_encode_message_base_p 9).1 (List.replicate 32 7) 1 (by norm_num)

/-- C9: the chunk decomposition is lossless: when the big-endian base-`p`
value `N` of the field elements satisfies `N < 2 ^ (NUM_CHUNKS * CHUNK_SIZE)`,
the chunks reconstruct `N` exactly, least significant chunk first:
`Σᵢ cᵢ · (2^CHUNK_SIZE)ⁱ = N`. -/
theorem C9_decode_to_chunks_lossless (NUM_CHUNKS CHUNK_SIZE : Nat)
    (hC : CHUNK_SIZE ≤ 8) (fes : List Nat)
    (hN : toBigUintBE MODULUS fes < 2 ^ (NUM_CHUNKS * CHUNK_SIZE)) :
    evalBaseLE (2 ^ CHUNK_SIZE) (decode_to_chunks NUM_CHUNKS CHUNK_SIZE fes) =
      toBigUintBE MODULUS fes := by
  unfold decode_to_chunks
  rw [evalBaseLE_baseDigitsLE]
  apply Nat.mod_eq_of_lt
  rwa [← pow_mul, Nat.mul_comm CHUNK_SIZE NUM_CHUNKS]

/-- Witness for C9 at concrete field elements. -/
theorem C9_decode_to_chunks_lossless_witness :
    evalBaseLE (2 ^ 2) (decode_to_chunks 32 2 [5, 123]) =
      toBigUintBE MODULUS [5, 123] :=
  C9_decode_to_chunks_lossless 32 2 (by norm_num) [5, 123] (by decide)

section WinternitzProofs

variable {α π ρ : Type}

lemma walkSteps_add (th : π → ShaTweak → List α → α) (p : π) (e i : Nat)
    (start : α) (f a b : Nat) :
    walkSteps th p e i (walkSteps th p e i start f a) (f + a) b =
      walkSteps th p e i start f (a + b) := by
  induction a generalizing start f with
  | zero => simp [walkSteps]
  | succ k ih =>
    have h₁ : walkSteps th p e i start f (k + 1) =
        walkSteps th p e i
          (th p (ShaTweak.ChainTweak e i (f + 1)) [start]) (f + 1) k := by
      simp [walkSteps]
    have h₂ : walkSteps th p e i start f (k + 1 + b) =
        walkSteps th p e i
          (th p (ShaTweak.ChainTweak e i (f + 1)) [start]) (f + 1) (k + b) := by
      rw [show k + 1 + b = (k + b) + 1 by omega]
      simp [walkSteps]
    rw [h₁, show f + (k + 1) = f + 1 + k by omega, ih, h₂]

lemma walk_comp (th : π → ShaTweak → List α → α) (p : π) (e i : Nat)
    (start : α) (c w : Nat) (hcw : c ≤ w) :
    walk th p e i (walk th p e i start 0 c) c w = walk th p e i start 0 w := by
  unfold walk
  simp only [Nat.sub_zero]
  have h := walkSteps_add th p e i start 0 c (w - c)
  simp only [Nat.zero_add] at h
  rw [h, Nat.add_sub_cancel' hcw]

lemma verify_sign_chains (th : π → ShaTweak → List α → α) (p : π) (e W : Nat)
    (i : Nat) (sk : List α) (cs : List Nat) (hlen : sk.length = cs.length)
    (hb : ∀ c ∈ cs, c < W) :
    verifyChainEnds th p e W i (signatureValues th p e W i sk cs) cs =
      publicChainEnds th p e W i sk := by
  induction sk generalizing i cs with
  | nil =>
    cases cs with
    | nil => simp [signatureValues, verifyChainEnds, publicChainEnds]
    | cons c cs => simp at hlen
  | cons s sk ih =>
    cases cs with
    | nil => simp at hlen
    | cons c cs =>
      simp only [signatureValues, verifyChainEnds, publicChainEnds]
      have hc : c < W := hb c (by simp)
      rw [walk_comp th p e i s c (W - 1) (by omega)]
      rw [ih (i + 1) cs (by simpa using hlen) (fun x hx => hb x (by simp [hx]))]

/-- C2: for every tweakable-hash compression function, every message-hash
function returning in-range chunks, every secret key of the right length,
every parameter, epoch, randomness and message, verifying a freshly produced
signature against the KeyGen public key succeeds:
`Verify(KeyGen(sk), parameter, epoch, message, Sign(sk, parameter, epoch,
message)) = true`. -/
theorem C2_winternitz_verify_sign (α π ρ : Type) [DecidableEq α]
    (th : π → ShaTweak → List α → α)
    (mh : π → Nat → ρ → List Nat → List Nat) (CHUNK_SIZE v : Nat)
    (parameter : π) (epoch : Nat) (randomness : ρ) (message : List Nat)
    (sk : List α)
    (hmh : ∀ c ∈ mh parameter epoch randomness message, c < 2 ^ CHUNK_SIZE)
    (hsk : sk.length = (mh parameter epoch randomness message).length + v) :
    verify th mh CHUNK_SIZE v (keygen th parameter epoch CHUNK_SIZE sk)
      parameter epoch message
      (sign th mh CHUNK_SIZE v parameter epoch randomness message sk) = true := by
  unfold verify sign keygen
  simp only []
  set W := 2 ^ CHUNK_SIZE with hW
  set chunks := mh parameter epoch randomness message with hchunks
  set allChunks := chunks ++ checksumChunks W v (checksum W chunks) with hall
  have hlen : sk.length = allChunks.length := by
    rw [hall, List.length_append, checksumChunks, List.length_reverse,
      baseDigitsLE_length, hsk]
  have hb : ∀ c ∈ allChunks, c < W := by
    intro c hc
    rcases List.mem_append.mp hc with hc | hc
    · exact hmh c hc
    · have hmem : c ∈ baseDigitsLE W v (checksum W chunks) := by
        rw [checksumChunks] at hc
        exact List.mem_reverse.mp hc
      exact baseDigitsLE_lt W v _ (Nat.two_pow_pos CHUNK_SIZE) c hmem
  rw [verify_sign_chains th parameter epoch W 0 sk allChunks hlen hb]
  simp

end WinternitzProofs

/-- Witness for C2 at a concrete compression function, message hash, secret
key and inputs. -/
theorem C2_winternitz_verify_sign_witness :
    verify (fun _ _ l => l.sum + 1) (fun _ _ _ _ => [1, 0]) 1 2
      (keygen (fun _ _ l => l.sum + 1) (0 : Nat) 5 1 [3, 4, 5, 6])
      (0 : Nat) 5 []
      (sign (fun _ _ l => l.sum + 1) (fun _ _ _ _ => [1, 0]) 1 2
        (0 : Nat) 5 (0 : Nat) [] [3, 4, 5, 6]) = true :=
  C2_winternitz_verify_sign Nat Nat Nat (fun _ _ l => l.sum + 1)
    (fun _ _ _ _ => [1, 0]) 1 2 0 5 0 [] [3, 4, 5, 6]
    (by decide) (by decide)

end HashSig
